import Mathlib

/-!
Verification of the interpolation service in `src/main.py`.

The service loads a tabular training set (columns `fuel_price`,
`commodity_cost`, `energy_price`, `weather_index`, `output_metric`), fits a
radial-basis-function surface with a degree-one polynomial tail and zero
smoothing over the N training points, and serves a `calculate` endpoint that
evaluates the fitted surface at a 4-dimensional query point, rounds the result
to two decimals, logs it, and echoes the inputs.

The fitting and evaluation mathematics happen inside the external
`RBFInterpolator` call (src/main.py:84); that code is not part of this
repository, so it is modelled here from the spec (section 4.2): an
(N+5)x(N+5) augmented linear system over an abstract radial kernel, solved
with zero smoothing. The glue code (`calculate`, `store_result`, the startup
sequence and the by-name column selection) is embedded directly from
src/main.py. All arithmetic is modelled over the rationals.
-/

/-- A 4-dimensional input point: (fuel_price, commodity_cost, energy_price,
weather_index), in this fixed order (src/main.py:79). -/
abbrev Vec4 := Fin 4 → ℚ

/-- Squared Euclidean distance between two input points. A radial kernel is a
function of the Euclidean distance, equivalently of its square; the kernel is
abstracted below as a function `ℚ → ℚ` of the squared distance. -/
def sqDist (a b : Vec4) : ℚ := ∑ k, (a k - b k) ^ 2

/-- Index type for the 5 polynomial basis functions of degree at most one:
`none` is the constant term, `some j` the j-th linear term. -/
abbrev PIdx := Option (Fin 4)

/-- Modelled from the spec: the N x N kernel matrix K[i][j] = phi(r_ij) of the
RBF system, with the kernel phi abstracted as a function of the squared
Euclidean distance between training inputs i and j. -/
def kernelMat {N : ℕ} (φ : ℚ → ℚ) (X : Fin N → Vec4) : Matrix (Fin N) (Fin N) ℚ :=
  fun i j => φ (sqDist (X i) (X j))

/-- Modelled from the spec: the N x 5 polynomial block, one column per
degree-at-most-one monomial (constant and the four coordinates). -/
def polyMat {N : ℕ} (X : Fin N → Vec4) : Matrix (Fin N) PIdx ℚ :=
  fun i k => match k with
  | none => 1
  | some j => X i j

/-- Modelled from the spec: the augmented (N+5) x (N+5) matrix
`[[K + s 1, P], [Pᵀ, 0]]` of the RBF fit, where `s` is the smoothing
parameter (src/main.py:84 passes `smoothing=0.0`). -/
def augMat {N : ℕ} (φ : ℚ → ℚ) (s : ℚ) (X : Fin N → Vec4) :
    Matrix (Fin N ⊕ PIdx) (Fin N ⊕ PIdx) ℚ :=
  Matrix.fromBlocks (kernelMat φ X + s • (1 : Matrix (Fin N) (Fin N) ℚ))
    (polyMat X) (Matrix.transpose (polyMat X)) 0

/-- Right-hand side of the augmented system: the training outputs padded with
five zeros for the moment conditions. -/
def paddedRhs {N : ℕ} (y : Fin N → ℚ) : Fin N ⊕ PIdx → ℚ := Sum.elim y 0

/-- A fitted model: the retained training inputs, the N kernel weights and the
5 polynomial coefficients (constant `c0` and linear `c`). -/
structure Model (N : ℕ) where
  X : Fin N → Vec4
  w : Fin N → ℚ
  c0 : ℚ
  c : Fin 4 → ℚ

/-- Package a solution vector of the augmented system as a fitted model. -/
def modelOf {N : ℕ} (X : Fin N → Vec4) (z : Fin N ⊕ PIdx → ℚ) : Model N :=
  { X := X
    w := fun i => z (Sum.inl i)
    c0 := z (Sum.inr none)
    c := fun j => z (Sum.inr (some j)) }

/-- Modelled from the spec: evaluating the fitted surface at a query point:
the weighted sum of kernel values against every training input plus the
polynomial tail. -/
def evaluate {N : ℕ} (φ : ℚ → ℚ) (m : Model N) (q : Vec4) : ℚ :=
  (∑ i, m.w i * φ (sqDist q (m.X i))) + (m.c0 + ∑ j, m.c j * q j)

/-- `z` is a solution of the augmented RBF system for kernel `φ`, smoothing
`s`, training inputs `X` and outputs `y`. -/
def Solves {N : ℕ} (φ : ℚ → ℚ) (s : ℚ) (X : Fin N → Vec4) (y : Fin N → ℚ)
    (z : Fin N ⊕ PIdx → ℚ) : Prop :=
  (augMat φ s X).mulVec z = paddedRhs y

/-- Modelled from the spec: the fit succeeds exactly when the augmented matrix
is nonsingular (injective as a linear map); otherwise the solver reports a
singular system and no model is produced. -/
def FitOk {N : ℕ} (φ : ℚ → ℚ) (s : ℚ) (X : Fin N → Vec4) : Prop :=
  Function.Injective ((augMat φ s X).mulVec)

/-- Relabelling of a solution vector under a permutation of the training rows:
the kernel weight of row `i` becomes the weight of the old row `σ i`; the
polynomial coefficients are unchanged. -/
def permZ {N : ℕ} (σ : Equiv.Perm (Fin N)) (z : Fin N ⊕ PIdx → ℚ) :
    Fin N ⊕ PIdx → ℚ :=
  Sum.elim (fun i => z (Sum.inl (σ i))) (fun k => z (Sum.inr k))

/-- Round half to even, as Python's built-in `round` (src/main.py:139),
modelled on exact rationals. -/
def roundHalfEven (x : ℚ) : ℤ :=
  if x - ⌊x⌋ < 1 / 2 then ⌊x⌋
  else if 1 / 2 < x - ⌊x⌋ then ⌊x⌋ + 1
  else if Even ⌊x⌋ then ⌊x⌋ else ⌊x⌋ + 1

/-- `round(v, 2)` (src/main.py:139): round to two decimal places. -/
def round2 (q : ℚ) : ℚ := (roundHalfEven (q * 100) : ℚ) / 100

/-- A value of the service's numeric type: a finite rational or one of the
non-finite floating-point values. The query parameters of `calculate`
(src/main.py:101-105) are floats, which admit NaN and infinities. -/
inductive FVal where
  | fin : ℚ → FVal
  | nan : FVal
  | posInf : FVal
  | negInf : FVal
  deriving DecidableEq

/-- Whether a service value is a finite number. -/
def FVal.isFinite : FVal → Bool
  | fin _ => true
  | _ => false

/-- Whether a service value is NaN. Python's sqlite3 binds float NaN as NULL;
every other value, infinities included, binds as a REAL. -/
def FVal.isNaN : FVal → Bool
  | nan => true
  | _ => false

/-- `round(v, 2)` lifted to service values: Python's `round` propagates
non-finite values unchanged. -/
def round2F : FVal → FVal
  | .fin q => .fin (round2 q)
  | v => v

/-- One row of the `calculations` log (src/main.py:27-37): the four echoed
inputs and the rounded output. The timestamp is environment input and is not
modelled. -/
structure Record where
  fuel_price : FVal
  commodity_cost : FVal
  energy_price : FVal
  weather_index : FVal
  calculated_output : FVal
  deriving DecidableEq

/-- Whether any of the row's five values is NaN — exactly the condition
under which the SQLite insert fails: every column of the `calculations`
table is declared REAL NOT NULL (src/main.py:27-37) and sqlite3 binds NaN as
NULL, so such an insert raises IntegrityError. -/
def Record.hasNaN (r : Record) : Bool :=
  r.fuel_price.isNaN || r.commodity_cost.isNaN || r.energy_price.isNaN
    || r.weather_index.isNaN || r.calculated_output.isNaN

/-- `store_result` (src/main.py:42-52): insert one row into the ordered log
and commit. If any bound value is NaN the insert violates the NOT NULL
schema and raises IntegrityError, leaving the log unchanged (the transaction
is never committed); otherwise the appended row is committed. -/
def store_result (db : List Record) (r : Record) : Except String (List Record) :=
  if r.hasNaN then .error "NOT NULL constraint failed: calculations"
  else .ok (db ++ [r])

/-- The fitted interpolator as a callable: four service values in, a result
out; `Except.error` models an exception escaping the call
(src/main.py:131-136). -/
abbrev Interp := FVal → FVal → FVal → FVal → Except String FVal

/-- The JSON body returned by `calculate` (src/main.py:144-159): either the
echoed inputs with the calculated output, or one of the two structured error
bodies. -/
inductive CalcResult where
  | ok (fuel_price commodity_cost energy_price weather_index calculated_output : FVal)
  | errNotReady (fuel_price commodity_cost energy_price weather_index : FVal)
  | errException (msg : String) (fuel_price commodity_cost energy_price weather_index : FVal)
  deriving DecidableEq

/-- Whether a `calculate` response is the success body. -/
def CalcResult.isOk : CalcResult → Bool
  | ok _ _ _ _ _ => true
  | _ => false

/-- The `calculated_output` field of a success body. -/
def CalcResult.calcOutput : CalcResult → Option FVal
  | ok _ _ _ _ out => some out
  | _ => none

/-- The `/calculate` endpoint (src/main.py:100-159): if the interpolator was
never built, return the structured not-ready error; otherwise evaluate the
interpolator on the raw query point (no finiteness validation is performed),
round to two decimals, store the row and echo everything back. The `try`
covers both the evaluation and the store: an exception from either is
returned as a structured error body with the log unchanged. -/
def calculate (interpolator : Option Interp) (db : List Record)
    (fuel_price commodity_cost energy_price weather_index : FVal) :
    CalcResult × List Record :=
  match interpolator with
  | none => (.errNotReady fuel_price commodity_cost energy_price weather_index, db)
  | some f =>
    match f fuel_price commodity_cost energy_price weather_index with
    | .error e =>
      (.errException e fuel_price commodity_cost energy_price weather_index, db)
    | .ok v =>
      match store_result db
          { fuel_price := fuel_price, commodity_cost := commodity_cost,
            energy_price := energy_price, weather_index := weather_index,
            calculated_output := round2F v } with
      | .error e =>
        (.errException e fuel_price commodity_cost energy_price weather_index, db)
      | .ok db2 =>
        (.ok fuel_price commodity_cost energy_price weather_index (round2F v), db2)

/-- The fitted scipy interpolator called on a query point (src/main.py:133-136):
finite inputs evaluate the fitted surface; a non-finite input propagates
through the distance and kernel arithmetic to a non-finite result (modelled
as NaN). The call does not raise on any numeric input. -/
def interpOfModel {N : ℕ} (φ : ℚ → ℚ) (m : Model N) : Interp :=
  fun a b c d =>
    match a, b, c, d with
    | .fin x1, .fin x2, .fin x3, .fin x4 => .ok (.fin (evaluate φ m ![x1, x2, x3, x4]))
    | _, _, _, _ => .ok .nan

/- ## Training-set loader -/

/-- The loaded tabular data, column-oriented: column name paired with the
column's values, in source order. -/
abbrev Table := List (String × List ℚ)

/-- Select a column by name, as `df[name]` does (src/main.py:79-80): the
position of the column in the source is irrelevant. -/
def getCol : Table → String → Option (List ℚ)
  | [], _ => none
  | x :: rest, n => if x.1 = n then some x.2 else getCol rest n

/-- Stack four equal-length columns into the N x 4 input matrix, row by row. -/
def zipRows : List ℚ → List ℚ → List ℚ → List ℚ → List Vec4
  | a :: ta, b :: tb, c :: tc, d :: td => ![a, b, c, d] :: zipRows ta tb tc td
  | _, _, _, _ => []

/-- The required column names, in the canonical order of src/main.py:79-80. -/
def requiredCols : List String :=
  ["fuel_price", "commodity_cost", "energy_price", "weather_index", "output_metric"]

/-- Extract the N x 4 input matrix and the length-N output vector from the
loaded table by column name (src/main.py:79-80); `none` models the KeyError
raised when a required column is absent. -/
def extractXY (t : Table) : Option (List Vec4 × List ℚ) :=
  match getCol t "fuel_price", getCol t "commodity_cost", getCol t "energy_price",
      getCol t "weather_index", getCol t "output_metric" with
  | some a, some b, some c, some d, some y => some (zipRows a b c d, y)
  | _, _, _, _, _ => none

/-- The number of data rows (`len(df)`), read off the first column. -/
def nrows (t : Table) : ℕ :=
  match t with
  | [] => 0
  | (_, c) :: _ => c.length

/-- The outcome of reading the CSV at startup (src/main.py:67-72): the file
was missing, or a table was loaded. -/
inductive LoadResult where
  | missing : LoadResult
  | table : Table → LoadResult

/-- Modelled from the spec and src/main.py:66-87: the relation between the
loaded CSV and the `interpolator` global after the startup sequence. Every
failure (missing file, empty table, missing column, singular system) is
caught and leaves the interpolator at `none`; only a successful fit installs
a callable built from a solution of the augmented system. -/
inductive StartupOutcome (φ : ℚ → ℚ) : LoadResult → Option Interp → Prop where
  | missing : StartupOutcome φ .missing none
  | empty (t : Table) : nrows t = 0 → StartupOutcome φ (.table t) none
  | malformed (t : Table) : 0 < nrows t → extractXY t = none →
      StartupOutcome φ (.table t) none
  | singular (t : Table) (X : List Vec4) (y : List ℚ) : 0 < nrows t →
      extractXY t = some (X, y) → ¬ FitOk φ 0 X.get →
      StartupOutcome φ (.table t) none
  | fitted (t : Table) (X : List Vec4) (y : List ℚ)
      (z : Fin X.length ⊕ PIdx → ℚ) : 0 < nrows t →
      extractXY t = some (X, y) → FitOk φ 0 X.get →
      StartupOutcome φ (.table t) (some (interpOfModel φ (modelOf X.get z)))

/- ## Concrete instances -/

/-- A concrete stand-in radial kernel for concrete instances (the spec leaves
the kernel a configuration choice; every statement below that uses `kern0`
holds for this explicit kernel). -/
def kern0 : ℚ → ℚ := fun d => d

/-- Six distinct training inputs used as a concrete instance. -/
def X1w : Fin 6 → Vec4 := fun i => ![(i.val : ℚ), 0, 0, 0]

/-- Training outputs for `X1w`, affine in the inputs. -/
def y1w : Fin 6 → ℚ := fun i => (i.val : ℚ) + 1

/-- An explicit solution of the augmented system for `X1w`, `y1w`: zero
kernel weights, polynomial tail `1 + fuel_price`. -/
def z1w : Fin 6 ⊕ PIdx → ℚ :=
  Sum.elim (fun _ => 0) (fun k =>
    match k with
    | none => 1
    | some j => ![1, 0, 0, 0] j)

/-- The training inputs of the spec's end-to-end scenario. -/
def X2 : Fin 6 → Vec4 :=
  ![![1, 1, 1, 1], ![2, 1, 1, 1], ![1, 2, 1, 1], ![1, 1, 2, 1], ![1, 1, 1, 2], ![3, 3, 3, 3]]

/-- The training outputs of the spec's end-to-end scenario. -/
def y2 : Fin 6 → ℚ := ![10, 12, 11, 13, 9, 20]

/-- An explicit solution of the augmented system for the end-to-end scenario
data (the scenario's outputs happen to be affine in the inputs: zero kernel
weights and polynomial tail 5 + 2a + b + 3c - d solve the system for every
kernel). -/
def z2w : Fin 6 ⊕ PIdx → ℚ :=
  Sum.elim (fun _ => 0) (fun k =>
    match k with
    | none => 5
    | some j => ![2, 1, 3, -1] j)

/-- Five affinely independent training inputs: the origin and the four unit
points. -/
def X5 : Fin 5 → Vec4 :=
  ![![0, 0, 0, 0], ![1, 0, 0, 0], ![0, 1, 0, 0], ![0, 0, 1, 0], ![0, 0, 0, 1]]

/-- Concrete training outputs for `X5`. -/
def y5 : Fin 5 → ℚ := ![1, 2, 3, 4, 5]

/-- The explicit inverse of the 5 x 5 polynomial block of `X5`. -/
def B5 : Matrix PIdx (Fin 5) ℚ :=
  fun k i => match k with
  | none => ![1, 0, 0, 0, 0] i
  | some j =>
    ![![-1, 1, 0, 0, 0], ![-1, 0, 1, 0, 0], ![-1, 0, 0, 1, 0], ![-1, 0, 0, 0, 1]] j i

/-- An explicit solution of the augmented system for `X5`, `y5`: zero kernel
weights and the affine tail 1 + a + 2b + 3c + 4d (valid for every kernel). -/
def z5w : Fin 5 ⊕ PIdx → ℚ :=
  Sum.elim (fun _ => 0) (fun k =>
    match k with
    | none => 1
    | some j => ![1, 2, 3, 4] j)

/-- A concrete nontrivial permutation of five training rows. -/
def sigma5 : Equiv.Perm (Fin 5) := Equiv.swap 0 1

/- ## Row-level description of the augmented system -/

theorem augMat_mulVec_inl {N : ℕ} (φ : ℚ → ℚ) (s : ℚ) (X : Fin N → Vec4)
    (z : Fin N ⊕ PIdx → ℚ) (i : Fin N) :
    (augMat φ s X).mulVec z (Sum.inl i) =
      (∑ j, φ (sqDist (X i) (X j)) * z (Sum.inl j)) + s * z (Sum.inl i)
        + (z (Sum.inr none) + ∑ j, X i j * z (Sum.inr (some j))) := by
  simp only [augMat, Matrix.mulVec, Matrix.dotProduct, Fintype.sum_sum_type,
    Matrix.fromBlocks_apply₁₁, Matrix.fromBlocks_apply₁₂, Matrix.add_apply,
    Matrix.smul_apply, Matrix.one_apply, smul_eq_mul, mul_ite, mul_one, mul_zero,
    kernelMat, polyMat, Fintype.sum_option, add_mul, ite_mul, one_mul, zero_mul]
  rw [Finset.sum_add_distrib, Finset.sum_ite_eq Finset.univ i
    (fun j => s * z (Sum.inl j))]
  simp [add_assoc]

theorem augMat_mulVec_inr {N : ℕ} (φ : ℚ → ℚ) (s : ℚ) (X : Fin N → Vec4)
    (z : Fin N ⊕ PIdx → ℚ) (k : PIdx) :
    (augMat φ s X).mulVec z (Sum.inr k) =
      ∑ i, polyMat X i k * z (Sum.inl i) := by
  simp [augMat, Matrix.mulVec, Matrix.dotProduct, Fintype.sum_sum_type,
    Matrix.fromBlocks_apply₂₁, Matrix.fromBlocks_apply₂₂, Matrix.transpose_apply]

/-- The augmented system, row by row: the N interpolation rows and the 5
moment conditions on the kernel weights. -/
theorem solves_iff {N : ℕ} (φ : ℚ → ℚ) (s : ℚ) (X : Fin N → Vec4)
    (y : Fin N → ℚ) (z : Fin N ⊕ PIdx → ℚ) :
    Solves φ s X y z ↔
      (∀ i, (∑ j, φ (sqDist (X i) (X j)) * z (Sum.inl j)) + s * z (Sum.inl i)
          + (z (Sum.inr none) + ∑ j, X i j * z (Sum.inr (some j))) = y i) ∧
      (∑ i, z (Sum.inl i)) = 0 ∧
      (∀ j : Fin 4, (∑ i, X i j * z (Sum.inl i)) = 0) := by
  unfold Solves
  rw [funext_iff, Sum.forall]
  constructor
  · rintro ⟨h1, h2⟩
    refine ⟨fun i => ?_, ?_, fun j => ?_⟩
    · rw [← augMat_mulVec_inl φ s X z i, h1 i]; rfl
    · have := h2 none
      rw [augMat_mulVec_inr] at this
      simpa [polyMat, paddedRhs] using this
    · have := h2 (some j)
      rw [augMat_mulVec_inr] at this
      simpa [polyMat, paddedRhs] using this
  · rintro ⟨h1, h2, h3⟩
    refine ⟨fun i => ?_, fun k => ?_⟩
    · rw [augMat_mulVec_inl φ s X z i, h1 i]; rfl
    · rw [augMat_mulVec_inr]
      match k with
      | none => simpa [polyMat, paddedRhs] using h2
      | some j => simpa [polyMat, paddedRhs] using h3 j

/-- A solution of the zero-smoothing system reproduces every training output
exactly when the fitted surface is evaluated at the training input. -/
theorem eval_solution_at_training {N : ℕ} (φ : ℚ → ℚ) (X : Fin N → Vec4)
    (y : Fin N → ℚ) (z : Fin N ⊕ PIdx → ℚ) (h : Solves φ 0 X y z) (i : Fin N) :
    evaluate φ (modelOf X z) (X i) = y i := by
  have h1 := ((solves_iff φ 0 X y z).1 h).1 i
  rw [zero_mul, add_zero] at h1
  have e1 : ∑ j, z (Sum.inl j) * φ (sqDist (X i) (X j))
      = ∑ j, φ (sqDist (X i) (X j)) * z (Sum.inl j) :=
    Finset.sum_congr rfl (fun j _ => mul_comm _ _)
  have e2 : ∑ j, z (Sum.inr (some j)) * X i j
      = ∑ j, X i j * z (Sum.inr (some j)) :=
    Finset.sum_congr rfl (fun j _ => mul_comm _ _)
  simp only [evaluate, modelOf]
  rw [e1, e2, ← add_assoc]
  rw [← add_assoc] at h1
  exact h1

/-- Claim C1: for every training set of at least 6 distinct 4-dimensional
input points, a fit with zero smoothing (a solution of the augmented system)
evaluates at every training input to exactly the corresponding training
output — in particular within any floating-point tolerance. -/
theorem exact_interpolation {N : ℕ} (φ : ℚ → ℚ) (X : Fin N → Vec4)
    (y : Fin N → ℚ) (z : Fin N ⊕ PIdx → ℚ)
    (hN : 6 ≤ N) (hdistinct : Function.Injective X)
    (hsolve : Solves φ 0 X y z) :
    ∀ i, evaluate φ (modelOf X z) (X i) = y i :=
  fun i => eval_solution_at_training φ X y z hsolve i

/-- Witness for C1: a concrete six-point instance with distinct inputs and an
explicit solution of its augmented system. -/
theorem exact_interpolation_w :
    evaluate kern0 (modelOf X1w z1w) (X1w 0) = y1w 0 := by
  refine exact_interpolation kern0 X1w y1w z1w (by norm_num) ?_ ?_ 0
  · intro i j h
    have h0 := congrFun h 0
    simp only [X1w, Matrix.cons_val_zero] at h0
    exact Fin.ext (Nat.cast_injective h0)
  · rw [solves_iff]
    refine ⟨fun i => ?_, ?_, fun j => ?_⟩
    · fin_cases i <;>
        simp [X1w, y1w, z1w, sqDist, kern0, Fin.sum_univ_succ] <;> norm_num
    · simp [z1w]
    · simp [z1w]

theorem X2_row_zero : X2 0 = ![1, 1, 1, 1] := rfl

theorem X2_row_one : X2 1 = ![2, 1, 1, 1] := rfl

theorem X2_row_two : X2 2 = ![1, 2, 1, 1] := rfl

theorem X2_row_three : X2 3 = ![1, 1, 2, 1] := rfl

theorem X2_row_four : X2 4 = ![1, 1, 1, 2] := rfl

theorem X2_row_five : X2 5 = ![3, 3, 3, 3] := rfl

theorem y2_row_zero : y2 0 = 10 := rfl

theorem y2_row_one : y2 1 = 12 := rfl

theorem y2_row_two : y2 2 = 11 := rfl

theorem y2_row_three : y2 3 = 13 := rfl

theorem y2_row_four : y2 4 = 9 := rfl

theorem y2_row_five : y2 5 = 20 := rfl

theorem roundHalfEven_intCast (n : ℤ) : roundHalfEven (n : ℚ) = n := by
  simp [roundHalfEven, Int.floor_intCast]

theorem round2_ten : round2 10 = 10 := by
  have h : (10 : ℚ) * 100 = ((1000 : ℤ) : ℚ) := by norm_num
  rw [round2, h, roundHalfEven_intCast]
  norm_num

/-- Claim C2: on the spec's six-point scenario data, a zero-smoothing fit
evaluated through the `calculate` endpoint at (1,1,1,1) returns the success
body with output exactly 10 (hence "10.00" after the two-decimal rounding),
and evaluated at the far extrapolation point (100,100,100,100) returns a
success body (a finite number, not an error). -/
theorem end_to_end_scenario (φ : ℚ → ℚ) (z : Fin 6 ⊕ PIdx → ℚ) (db : List Record)
    (hsolve : Solves φ 0 X2 y2 z) :
    (calculate (some (interpOfModel φ (modelOf X2 z))) db
        (.fin 1) (.fin 1) (.fin 1) (.fin 1)).1 =
      .ok (.fin 1) (.fin 1) (.fin 1) (.fin 1) (.fin 10) ∧
    ((calculate (some (interpOfModel φ (modelOf X2 z))) db
        (.fin 100) (.fin 100) (.fin 100) (.fin 100)).1.isOk = true) := by
  constructor
  · have h10 : evaluate φ (modelOf X2 z) ![1, 1, 1, 1] = 10 := by
      have h := eval_solution_at_training φ X2 y2 z hsolve 0
      simpa [X2, y2] using h
    simp [calculate, interpOfModel, h10, round2F, round2_ten, store_result,
      Record.hasNaN, FVal.isNaN]
  · simp [calculate, interpOfModel, CalcResult.isOk, round2F, store_result,
      Record.hasNaN, FVal.isNaN]

/-- Witness for C2: the explicit affine solution of the scenario's system. -/
theorem end_to_end_scenario_w :
    (calculate (some (interpOfModel kern0 (modelOf X2 z2w))) []
        (.fin 1) (.fin 1) (.fin 1) (.fin 1)).1 =
      .ok (.fin 1) (.fin 1) (.fin 1) (.fin 1) (.fin 10) := by
  refine (end_to_end_scenario kern0 z2w [] ?_).1
  rw [solves_iff]
  refine ⟨fun i => ?_, ?_, fun j => ?_⟩
  · fin_cases i <;>
      simp [z2w, sqDist, kern0, Fin.sum_univ_succ, X2_row_zero, X2_row_one,
        X2_row_two, X2_row_three, X2_row_four, X2_row_five, y2_row_zero,
        y2_row_one, y2_row_two, y2_row_three, y2_row_four, y2_row_five] <;>
      norm_num
  · simp [z2w]
  · simp [z2w]

/-- Claim C4: for every numeric query that reaches a fitted interpolator and
gets a finite value back, the scalar in the success body is exactly the raw
interpolated value rounded to two decimal places, and that rounded value is
an integer number of hundredths: it is expressible with exactly two decimal
places. -/
theorem rounding_contract (f : Interp) (db : List Record) (a b c d : ℚ)
    (v : ℚ) (hv : f (.fin a) (.fin b) (.fin c) (.fin d) = .ok (.fin v)) :
    (calculate (some f) db (.fin a) (.fin b) (.fin c) (.fin d)).1.calcOutput
      = some (.fin (round2 v)) ∧
    ∃ n : ℤ, round2 v = (n : ℚ) / 100 := by
  constructor
  · simp [calculate, hv, round2F, CalcResult.calcOutput, store_result,
      Record.hasNaN, FVal.isNaN]
  · exact ⟨roundHalfEven (v * 100), rfl⟩

/-- An interpolator stub returning the raw value 12.345, used as the C4
witness input. -/
def fW4 : Interp := fun _ _ _ _ => .ok (.fin (12345 / 1000))

/-- Witness for C4 at a concrete raw value. -/
theorem rounding_contract_w :
    (calculate (some fW4) [] (.fin 1) (.fin 1) (.fin 1) (.fin 1)).1.calcOutput
      = some (.fin (round2 (12345 / 1000))) :=
  (rounding_contract fW4 [] 1 1 1 1 (12345 / 1000) rfl).1

/-- Claim C5 counterexample: a `calculate` call with a NaN input is not
rejected with any InvalidInput condition — the NaN is passed straight into
the interpolation arithmetic (which consumes it and produces NaN); the call
then fails only afterwards, at the log insert, whose NOT NULL IntegrityError
body is what comes back. -/
theorem nan_input_not_rejected :
    (interpOfModel kern0 (modelOf X2 z2w) .nan (.fin 1) (.fin 1) (.fin 1)
      = Except.ok FVal.nan) ∧
    calculate (some (interpOfModel kern0 (modelOf X2 z2w))) []
        .nan (.fin 1) (.fin 1) (.fin 1) =
      (.errException "NOT NULL constraint failed: calculations"
        .nan (.fin 1) (.fin 1) (.fin 1), []) := by
  exact ⟨rfl, by simp [calculate, interpOfModel, store_result, Record.hasNaN,
    FVal.isNaN, round2F]⟩

/-- Claim C5 amended: `calculate` performs no finiteness validation and has
no InvalidInput condition — a call with a NaN input passes the NaN into the
interpolation arithmetic; whatever that arithmetic returns, the subsequent
log insert raises the NOT NULL IntegrityError (the NaN input itself binds as
NULL), so the call returns that store error echoing the inputs, with the log
unchanged. -/
theorem nan_input_propagates (f : Interp) (db : List Record) (b c d : FVal)
    (v : FVal) (hv : f .nan b c d = .ok v) :
    calculate (some f) db .nan b c d =
      (.errException "NOT NULL constraint failed: calculations" .nan b c d,
        db) ∧
    ∀ {N : ℕ} (φ : ℚ → ℚ) (m : Model N),
      interpOfModel φ m .nan b c d = Except.ok FVal.nan := by
  constructor
  · simp [calculate, hv, store_result, Record.hasNaN, FVal.isNaN]
  · intro N φ m
    cases b <;> cases c <;> cases d <;> rfl

/-- Witness for the amended C5: the NaN reaches the modelled kernel
arithmetic of a concrete fitted model, and the call returns the store's
IntegrityError body with the log unchanged. -/
theorem nan_input_propagates_w :
    calculate (some (interpOfModel kern0 (modelOf X2 z2w))) []
        .nan (.fin 2) (.fin 3) (.fin 4) =
      (.errException "NOT NULL constraint failed: calculations"
        .nan (.fin 2) (.fin 3) (.fin 4), []) :=
  (nan_input_propagates (interpOfModel kern0 (modelOf X2 z2w)) []
    (.fin 2) (.fin 3) (.fin 4) .nan rfl).1

/-- Claim C7: evaluation is deterministic — the `calculate` response for a
given interpolator and query point does not depend on the state of the
results log, and an immediately repeated call at the same query point (after
the log changed by the first call, or by any other calls in between) returns
the identical response. -/
theorem evaluation_deterministic (i : Option Interp) (db1 db2 : List Record)
    (a b c d : FVal) :
    (calculate i db1 a b c d).1 = (calculate i db2 a b c d).1 ∧
    (calculate i (calculate i db1 a b c d).2 a b c d).1
      = (calculate i db1 a b c d).1 := by
  match i with
  | none => exact ⟨rfl, rfl⟩
  | some f =>
    cases hf : f a b c d with
    | error e => simp [calculate, hf]
    | ok v =>
      by_cases hs : Record.hasNaN
          { fuel_price := a, commodity_cost := b, energy_price := c,
            weather_index := d, calculated_output := round2F v } = true <;>
        simp [calculate, hf, store_result, hs]

/-- Claim C10: log atomicity of `calculate` — a successful call appends
exactly one record, holding the four echoed inputs and the rounded output,
and returns the matching success body; every failing call — interpolator
never built, the interpolation raising, or the log insert itself raising on
a NaN value — returns a structured error echoing the inputs and leaves the
log unchanged. -/
theorem calculate_log_atomicity (f : Interp) (db : List Record)
    (a b c d : FVal) :
    (∀ v, f a b c d = .ok v →
      Record.hasNaN ⟨a, b, c, d, round2F v⟩ = false →
      calculate (some f) db a b c d =
        (.ok a b c d (round2F v), db ++ [⟨a, b, c, d, round2F v⟩])) ∧
    (∀ v, f a b c d = .ok v →
      Record.hasNaN ⟨a, b, c, d, round2F v⟩ = true →
      calculate (some f) db a b c d =
        (.errException "NOT NULL constraint failed: calculations" a b c d, db)) ∧
    (∀ e, f a b c d = .error e →
      calculate (some f) db a b c d = (.errException e a b c d, db)) ∧
    calculate none db a b c d = (.errNotReady a b c d, db) := by
  refine ⟨fun v hv hnn => ?_, fun v hv hnn => ?_, fun e he => ?_, rfl⟩
  · simp [calculate, hv, store_result, hnn]
  · simp [calculate, hv, store_result, hnn]
  · simp [calculate, he]

/-- An interpolator stub that succeeds with value 7, for the C10 witness. -/
def fW10 : Interp := fun _ _ _ _ => .ok (.fin 7)

/-- An interpolator stub that raises, for the C10 witness. -/
def gW10 : Interp := fun _ _ _ _ => .error "boom"

/-- Witness for C10: a concrete successful call, a concrete raising call,
and a concrete call whose log insert fails on a NaN value. -/
theorem calculate_log_atomicity_w :
    calculate (some fW10) [] (.fin 1) (.fin 2) (.fin 3) (.fin 4) =
      (.ok (.fin 1) (.fin 2) (.fin 3) (.fin 4) (round2F (.fin 7)),
        [{ fuel_price := .fin 1, commodity_cost := .fin 2, energy_price := .fin 3,
           weather_index := .fin 4, calculated_output := round2F (.fin 7) }]) ∧
    calculate (some gW10) [] (.fin 1) (.fin 2) (.fin 3) (.fin 4) =
      (.errException "boom" (.fin 1) (.fin 2) (.fin 3) (.fin 4), []) ∧
    calculate (some fW10) [] (.fin 1) (.fin 2) (.fin 3) .nan =
      (.errException "NOT NULL constraint failed: calculations"
        (.fin 1) (.fin 2) (.fin 3) .nan, []) :=
  ⟨(calculate_log_atomicity fW10 [] (.fin 1) (.fin 2) (.fin 3) (.fin 4)).1
      (.fin 7) rfl rfl,
   (calculate_log_atomicity gW10 [] (.fin 1) (.fin 2) (.fin 3) (.fin 4)).2.2.1
      "boom" rfl,
   (calculate_log_atomicity fW10 [] (.fin 1) (.fin 2) (.fin 3) .nan).2.1
      (.fin 7) rfl rfl⟩

/-- Claim C6: whenever loading or fitting fails (missing file, empty table,
missing column, singular system), the startup sequence leaves the
interpolator at `none`, and every subsequent `calculate` call returns the
structured not-ready error, echoing the inputs and leaving the log
unchanged. (Every failure path is a constructor of the total relation
`StartupOutcome`: each is caught, none terminates the process.) -/
theorem startup_failure_not_ready (φ : ℚ → ℚ) (r : LoadResult)
    (o : Option Interp) (hso : StartupOutcome φ r o)
    (hfail : r = .missing ∨ ∃ t, r = .table t ∧ (nrows t = 0 ∨
        extractXY t = none ∨
        ∃ X y, extractXY t = some (X, y) ∧ ¬ FitOk φ 0 X.get)) :
    o = none ∧
      ∀ db a b c d, calculate o db a b c d = (.errNotReady a b c d, db) := by
  have hnone : o = none := by
    cases hso with
    | missing => rfl
    | empty t h => rfl
    | malformed t h1 h2 => rfl
    | singular t X y h1 h2 h3 => rfl
    | fitted t X y z h1 h2 h3 =>
      rcases hfail with h | ⟨t', ht', hcase⟩
      · exact LoadResult.noConfusion h
      · injection ht' with ht
        subst ht
        rcases hcase with h0 | hnoneX | ⟨X', y', hsome, hnofit⟩
        · omega
        · rw [h2] at hnoneX; exact Option.noConfusion hnoneX
        · rw [h2] at hsome
          injection hsome with hp
          have hX : X = X' := congrArg Prod.fst hp
          subst hX
          exact absurd h3 hnofit
  subst hnone
  exact ⟨rfl, fun db a b c d => rfl⟩

/-- Witness for C6: the missing-file startup path. -/
theorem startup_failure_not_ready_w :
    calculate none [] (.fin 1) (.fin 2) (.fin 3) (.fin 4)
      = (.errNotReady (.fin 1) (.fin 2) (.fin 3) (.fin 4), []) :=
  (startup_failure_not_ready kern0 .missing none StartupOutcome.missing
    (Or.inl rfl)).2 [] (.fin 1) (.fin 2) (.fin 3) (.fin 4)

/-- Selecting a column by name is invariant under reordering the columns of
the source, as long as the column names are distinct. -/
theorem getCol_perm {t1 t2 : Table} (h : t1.Perm t2) :
    ∀ (hnd : (t1.map Prod.fst).Nodup) (n : String), getCol t1 n = getCol t2 n := by
  induction h with
  | nil => exact fun _ _ => rfl
  | cons x h ih =>
    intro hnd n
    have htail := by
      simp only [List.map_cons, List.nodup_cons] at hnd
      exact hnd.2
    by_cases hxn : x.1 = n <;> simp [getCol, hxn, ih htail n]
  | swap x y l =>
    intro hnd n
    have hyx : y.1 ≠ x.1 := by
      simp only [List.map_cons, List.nodup_cons, List.mem_cons] at hnd
      exact fun hh => hnd.1 (Or.inl hh)
    by_cases hx : x.1 = n <;> by_cases hy : y.1 = n <;>
      simp [getCol, hx, hy]
    exact absurd (hy.trans hx.symm) hyx
  | trans h1 h2 ih1 ih2 =>
    intro hnd n
    exact (ih1 hnd n).trans (ih2 ((h1.map Prod.fst).nodup_iff.1 hnd) n)

/-- Claim C9: reordered source columns never corrupt feature assignment —
for any two tables that are permutations of each other and whose column
names are exactly the required five, the loader extracts the identical
N x 4 input matrix and length-N output vector. -/
theorem column_reorder_safe (t1 t2 : Table) (hperm : t1.Perm t2)
    (hnames : (t1.map Prod.fst).Perm requiredCols) :
    extractXY t1 = extractXY t2 := by
  have hnd : (t1.map Prod.fst).Nodup := by
    refine hnames.nodup_iff.2 ?_
    simp [requiredCols]
  unfold extractXY
  rw [getCol_perm hperm hnd "fuel_price", getCol_perm hperm hnd "commodity_cost",
    getCol_perm hperm hnd "energy_price", getCol_perm hperm hnd "weather_index",
    getCol_perm hperm hnd "output_metric"]

/-- A one-row table in the canonical column order. -/
def tblA : Table :=
  [("fuel_price", [1]), ("commodity_cost", [2]), ("energy_price", [3]),
   ("weather_index", [4]), ("output_metric", [10])]

/-- The same table with its first two columns swapped. -/
def tblB : Table :=
  [("commodity_cost", [2]), ("fuel_price", [1]), ("energy_price", [3]),
   ("weather_index", [4]), ("output_metric", [10])]

/-- Witness for C9: swapping the first two source columns leaves the
extracted training arrays unchanged. -/
theorem column_reorder_safe_w : extractXY tblA = extractXY tblB :=
  column_reorder_safe tblA tblB
    (List.Perm.swap ("commodity_cost", [2]) ("fuel_price", [1]) _)
    (show (tblA.map Prod.fst).Perm requiredCols from
      (rfl : tblA.map Prod.fst = requiredCols) ▸ List.Perm.refl _)

/-- With zero smoothing, two identical training inputs make the columns of
the augmented matrix at those two rows identical. -/
theorem augMat_col_eq_of_dup {N : ℕ} (φ : ℚ → ℚ) (X : Fin N → Vec4)
    {i j : Fin N} (hX : X i = X j) (r : Fin N ⊕ PIdx) :
    augMat φ 0 X r (Sum.inl i) = augMat φ 0 X r (Sum.inl j) := by
  rcases r with r' | k
  · simp [augMat, Matrix.fromBlocks_apply₁₁, Matrix.add_apply, Matrix.smul_apply,
      zero_smul, Matrix.zero_apply, add_zero, kernelMat, hX]
  · rcases k with _ | j' <;>
      simp [augMat, Matrix.fromBlocks_apply₂₁, Matrix.transpose_apply, polyMat, hX]

/-- Two identical training inputs make the zero-smoothing augmented matrix
singular: the fit is rejected. -/
theorem dup_rows_not_fitOk {N : ℕ} (φ : ℚ → ℚ) (X : Fin N → Vec4)
    (i j : Fin N) (hij : i ≠ j) (hX : X i = X j) : ¬ FitOk φ 0 X := by
  intro hinj
  have hmv : (augMat φ 0 X).mulVec (Sum.elim (Pi.single i 1 - Pi.single j 1) 0)
      = (augMat φ 0 X).mulVec 0 := by
    rw [Matrix.mulVec_zero]
    funext r
    simp only [Matrix.mulVec, Matrix.dotProduct, Fintype.sum_sum_type,
      Sum.elim_inl, Sum.elim_inr, Pi.sub_apply, Pi.single_apply, Pi.zero_apply,
      mul_zero, Finset.sum_const_zero, add_zero, mul_sub, mul_ite, mul_one]
    rw [Finset.sum_sub_distrib]
    rw [Finset.sum_ite_eq' Finset.univ i fun l => augMat φ 0 X r (Sum.inl l)]
    rw [Finset.sum_ite_eq' Finset.univ j fun l => augMat φ 0 X r (Sum.inl l)]
    simp [augMat_col_eq_of_dup φ X hX r]
  have h0 := hinj hmv
  have h1 := congrFun h0 (Sum.inl i)
  simp [Pi.single_apply, hij] at h1

/-- With fewer than five training points the five polynomial columns of the
augmented matrix are linearly dependent, so the matrix is singular for every
kernel and smoothing value: the fit is rejected. -/
theorem small_N_not_fitOk {N : ℕ} (φ : ℚ → ℚ) (s : ℚ) (X : Fin N → Vec4)
    (hN : N < 5) : ¬ FitOk φ s X := by
  intro hinj
  have hdep : ¬ LinearIndependent ℚ (fun k : PIdx => fun i : Fin N => polyMat X i k) := by
    intro hli
    have hle := hli.fintype_card_le_finrank
    rw [Module.finrank_fintype_fun_eq_card] at hle
    simp only [Fintype.card_option, Fintype.card_fin] at hle
    omega
  obtain ⟨g, hsum, k0, hk0⟩ := Fintype.not_linearIndependent_iff.1 hdep
  have hmv : (augMat φ s X).mulVec (Sum.elim 0 g) = (augMat φ s X).mulVec 0 := by
    rw [Matrix.mulVec_zero]
    funext r
    rcases r with r' | k'
    · simp only [Matrix.mulVec, Matrix.dotProduct, Fintype.sum_sum_type,
        Sum.elim_inl, Sum.elim_inr, Pi.zero_apply, mul_zero,
        Finset.sum_const_zero, zero_add]
      have h := congrFun hsum r'
      simp only [Finset.sum_apply, Pi.smul_apply, smul_eq_mul, Pi.zero_apply] at h
      calc ∑ k, augMat φ s X (Sum.inl r') (Sum.inr k) * g k
          = ∑ k, g k * polyMat X r' k := Finset.sum_congr rfl (fun k _ => by
            simp [augMat, Matrix.fromBlocks_apply₁₂, mul_comm])
        _ = 0 := h
    · simp only [Matrix.mulVec, Matrix.dotProduct, Fintype.sum_sum_type,
        Sum.elim_inl, Sum.elim_inr, Pi.zero_apply, mul_zero,
        Finset.sum_const_zero, zero_add]
      simp [augMat, Matrix.fromBlocks_apply₂₂]
  have h0 := hinj hmv
  have h1 := congrFun h0 (Sum.inr k0)
  simp only [Sum.elim_inr, Pi.zero_apply] at h1
  exact hk0 h1

/-- If the polynomial block has a two-sided inverse, the augmented matrix is
nonsingular for every kernel and smoothing value. -/
theorem fitOk_of_polyMat_inverse {N : ℕ} (φ : ℚ → ℚ) (s : ℚ) (X : Fin N → Vec4)
    (B : Matrix PIdx (Fin N) ℚ)
    (hBP : B * polyMat X = 1) (hPB : polyMat X * B = 1) : FitOk φ s X := by
  intro z1 z2 hz
  have hsub : (augMat φ s X).mulVec (z1 - z2) = 0 := by
    rw [Matrix.mulVec_sub, hz, sub_self]
  have hbot : (Matrix.transpose (polyMat X)).mulVec
      (fun i => (z1 - z2) (Sum.inl i)) = 0 := by
    funext k
    have h := congrFun hsub (Sum.inr k)
    rw [augMat_mulVec_inr] at h
    simpa [Matrix.mulVec, Matrix.dotProduct, Matrix.transpose_apply] using h
  have hw : (fun i => (z1 - z2) (Sum.inl i)) = (0 : Fin N → ℚ) := by
    have h2 : (Matrix.transpose B).mulVec ((Matrix.transpose (polyMat X)).mulVec
        fun i => (z1 - z2) (Sum.inl i)) = 0 := by
      rw [hbot, Matrix.mulVec_zero]
    rwa [Matrix.mulVec_mulVec, ← Matrix.transpose_mul, hPB, Matrix.transpose_one,
      Matrix.one_mulVec] at h2
  have htop : (polyMat X).mulVec (fun k => (z1 - z2) (Sum.inr k)) = 0 := by
    funext i
    have h := congrFun hsub (Sum.inl i)
    rw [augMat_mulVec_inl] at h
    have hwz : ∀ j, (z1 - z2) (Sum.inl j) = 0 := fun j => congrFun hw j
    simp only [hwz, mul_zero, Finset.sum_const_zero, zero_add, add_zero,
      Pi.zero_apply] at h
    simpa [Matrix.mulVec, Matrix.dotProduct, Fintype.sum_option, polyMat] using h
  have hc : (fun k => (z1 - z2) (Sum.inr k)) = (0 : PIdx → ℚ) := by
    have h2 : B.mulVec ((polyMat X).mulVec fun k => (z1 - z2) (Sum.inr k)) = 0 := by
      rw [htop, Matrix.mulVec_zero]
    rwa [Matrix.mulVec_mulVec, hBP, Matrix.one_mulVec] at h2
  have hzero : ∀ r, z1 r - z2 r = 0 := by
    intro r
    rcases r with i | k
    · simpa using congrFun hw i
    · simpa using congrFun hc k
  funext r
  exact sub_eq_zero.1 (hzero r)

theorem B5_left_inverse : B5 * polyMat X5 = 1 := by
  ext k k'
  rcases k with _ | j <;> rcases k' with _ | j'
  · simp [Matrix.mul_apply, Fin.sum_univ_succ, B5, polyMat, X5, Matrix.one_apply]
  · fin_cases j' <;>
      simp [Matrix.mul_apply, Fin.sum_univ_succ, B5, polyMat, X5, Matrix.one_apply]
  · fin_cases j <;>
      simp [Matrix.mul_apply, Fin.sum_univ_succ, B5, polyMat, X5, Matrix.one_apply]
  · fin_cases j <;> fin_cases j' <;>
      simp [Matrix.mul_apply, Fin.sum_univ_succ, B5, polyMat, X5, Matrix.one_apply]

theorem B5_right_inverse : polyMat X5 * B5 = 1 := by
  ext i i'
  fin_cases i <;> fin_cases i' <;>
    simp [Matrix.mul_apply, Fintype.sum_option, Fin.sum_univ_succ, B5, polyMat,
      X5, Matrix.one_apply]

/-- Claim C3 counterexample: a training set of exactly five (affinely
independent) points — fewer than the six the claim requires to fail — makes
the zero-smoothing augmented system nonsingular: the fit succeeds and a
model solving the system exists. (The nonsingularity argument is independent
of the kernel; it is stated here for the concrete kernel `kern0`.) -/
theorem five_point_fit_succeeds :
    FitOk kern0 0 X5 ∧ ∃ z, Solves kern0 0 X5 y5 z := by
  have hfit : FitOk kern0 0 X5 :=
    fitOk_of_polyMat_inverse kern0 0 X5 B5 B5_left_inverse B5_right_inverse
  refine ⟨hfit, ?_⟩
  have hinj : Function.Injective ((augMat kern0 0 X5).mulVecLin) := by
    intro a b hab
    exact hfit (by simpa [Matrix.mulVecLin_apply] using hab)
  have hsurj := LinearMap.injective_iff_surjective.1 hinj
  obtain ⟨z, hz⟩ := hsurj (paddedRhs y5)
  exact ⟨z, by simpa [Matrix.mulVecLin_apply] using hz⟩

/-- Claim C3 amended: degenerate training data is rejected — fewer than
five points (not six: five affinely independent points already give a
nonsingular system, see the counterexample), or two identical input rows,
leave the zero-smoothing augmented matrix singular, so the fit fails and no
model is produced. -/
theorem degenerate_training_rejected {N : ℕ} (φ : ℚ → ℚ) (X : Fin N → Vec4)
    (h : (∃ i j, i ≠ j ∧ X i = X j) ∨ N < 5) : ¬ FitOk φ 0 X := by
  rcases h with ⟨i, j, hij, hX⟩ | hN
  · exact dup_rows_not_fitOk φ X i j hij hX
  · exact small_N_not_fitOk φ 0 X hN

/-- Witness for the amended C3: a two-row training set with identical
rows is rejected. -/
theorem degenerate_training_rejected_w :
    ¬ FitOk kern0 0 (fun _ : Fin 2 => ![1, 2, 3, 4]) :=
  degenerate_training_rejected kern0 (fun _ : Fin 2 => ![1, 2, 3, 4])
    (Or.inl ⟨0, 1, by decide, rfl⟩)

/-- Row-level effect of permuting the training rows: the permuted system
applied to the relabelled solution vector computes the original system's
rows, reindexed. -/
theorem augMat_mulVec_permZ {N : ℕ} (φ : ℚ → ℚ) (s : ℚ) (σ : Equiv.Perm (Fin N))
    (X : Fin N → Vec4) (z : Fin N ⊕ PIdx → ℚ) (r : Fin N ⊕ PIdx) :
    (augMat φ s (X ∘ σ)).mulVec (permZ σ z) r =
      (augMat φ s X).mulVec z (Sum.elim (fun i => Sum.inl (σ i)) Sum.inr r) := by
  rcases r with i | k
  · rw [Sum.elim_inl, augMat_mulVec_inl, augMat_mulVec_inl]
    simp only [permZ, Sum.elim_inl, Sum.elim_inr, Function.comp_apply]
    have e1 : ∑ j, φ (sqDist (X (σ i)) (X (σ j))) * z (Sum.inl (σ j))
        = ∑ j, φ (sqDist (X (σ i)) (X j)) * z (Sum.inl j) :=
      Fintype.sum_equiv σ _ _ (fun j => rfl)
    rw [e1]
  · rw [Sum.elim_inr, augMat_mulVec_inr, augMat_mulVec_inr]
    refine Fintype.sum_equiv σ _ _ (fun i => ?_)
    rcases k with _ | j <;> simp [polyMat, permZ]

/-- A solution of the system stays a solution after permuting the training
rows, once its kernel weights are relabelled along the permutation. -/
theorem permZ_solves {N : ℕ} (φ : ℚ → ℚ) (s : ℚ) (σ : Equiv.Perm (Fin N))
    (X : Fin N → Vec4) (y : Fin N → ℚ) (z : Fin N ⊕ PIdx → ℚ)
    (hz : Solves φ s X y z) :
    Solves φ s (X ∘ σ) (y ∘ σ) (permZ σ z) := by
  unfold Solves at hz ⊢
  funext r
  rw [augMat_mulVec_permZ φ s σ X z r, hz]
  rcases r with i | k <;> rfl

/-- The relabelled solution evaluates to the same surface everywhere. -/
theorem eval_permZ {N : ℕ} (φ : ℚ → ℚ) (σ : Equiv.Perm (Fin N))
    (X : Fin N → Vec4) (z : Fin N ⊕ PIdx → ℚ) (q : Vec4) :
    evaluate φ (modelOf (X ∘ σ) (permZ σ z)) q = evaluate φ (modelOf X z) q := by
  simp only [evaluate, modelOf, permZ, Sum.elim_inl, Sum.elim_inr,
    Function.comp_apply]
  have e1 : ∑ i, z (Sum.inl (σ i)) * φ (sqDist q (X (σ i)))
      = ∑ i, z (Sum.inl i) * φ (sqDist q (X i)) :=
    Fintype.sum_equiv σ _ _ (fun i => rfl)
  rw [e1]

/-- Permuting the training rows preserves nonsingularity of the augmented
system. -/
theorem fitOk_perm {N : ℕ} (φ : ℚ → ℚ) (s : ℚ) (σ : Equiv.Perm (Fin N))
    (X : Fin N → Vec4) (h : FitOk φ s X) : FitOk φ s (X ∘ σ) := by
  intro z2 z3 hz
  have e2 : permZ σ (permZ σ⁻¹ z2) = z2 := by
    funext r
    rcases r with i | k
    · simp [permZ]
    · rfl
  have e3 : permZ σ (permZ σ⁻¹ z3) = z3 := by
    funext r
    rcases r with i | k
    · simp [permZ]
    · rfl
  have hmain : (augMat φ s X).mulVec (permZ σ⁻¹ z2)
      = (augMat φ s X).mulVec (permZ σ⁻¹ z3) := by
    funext r
    rcases r with i | k
    · have hr := congrFun hz (Sum.inl (σ⁻¹ i))
      rw [← e2, ← e3, augMat_mulVec_permZ, augMat_mulVec_permZ] at hr
      simpa using hr
    · have hr := congrFun hz (Sum.inr k)
      rw [← e2, ← e3, augMat_mulVec_permZ, augMat_mulVec_permZ] at hr
      simpa using hr
  have := h hmain
  rw [← e2, ← e3, this]

/-- A nonsingular system has at most one solution. -/
theorem solves_unique {N : ℕ} (φ : ℚ → ℚ) (s : ℚ) (X : Fin N → Vec4)
    (y : Fin N → ℚ) (hfit : FitOk φ s X) {z z' : Fin N ⊕ PIdx → ℚ}
    (hz : Solves φ s X y z) (hz' : Solves φ s X y z') : z = z' :=
  hfit (hz.trans hz'.symm)

/-- Claim C8: symmetry under row reordering — if `z` is a zero-smoothing fit
of the training set and `z'` is the (unique) fit of the row-permuted
training set, the two fitted models evaluate identically at every query
point. -/
theorem row_reorder_invariance {N : ℕ} (φ : ℚ → ℚ) (σ : Equiv.Perm (Fin N))
    (X : Fin N → Vec4) (y : Fin N → ℚ) (z z' : Fin N ⊕ PIdx → ℚ)
    (hz : Solves φ 0 X y z)
    (hz' : Solves φ 0 (X ∘ σ) (y ∘ σ) z')
    (huniq : ∀ z2, Solves φ 0 (X ∘ σ) (y ∘ σ) z2 → z2 = z') :
    ∀ q, evaluate φ (modelOf (X ∘ σ) z') q = evaluate φ (modelOf X z) q := by
  intro q
  have hperm := permZ_solves φ 0 σ X y z hz
  rw [← huniq (permZ σ z) hperm]
  exact eval_permZ φ σ X z q

/-- Witness for C8: the five-point instance, its explicit solution, a
concrete row swap, and the uniqueness of the permuted fit (the permuted
system is nonsingular). -/
theorem row_reorder_invariance_w :
    evaluate kern0 (modelOf (X5 ∘ sigma5) (permZ sigma5 z5w)) ![9, 7, 5, 3]
      = evaluate kern0 (modelOf X5 z5w) ![9, 7, 5, 3] := by
  have hz : Solves kern0 0 X5 y5 z5w := by
    rw [solves_iff]
    refine ⟨fun i => ?_, ?_, fun j => ?_⟩
    · fin_cases i <;>
        simp [z5w, sqDist, kern0, Fin.sum_univ_succ, X5, y5] <;> norm_num
    · simp [z5w]
    · simp [z5w]
  have hfitP : FitOk kern0 0 (X5 ∘ sigma5) :=
    fitOk_perm kern0 0 sigma5 X5
      (fitOk_of_polyMat_inverse kern0 0 X5 B5 B5_left_inverse B5_right_inverse)
  have hz' : Solves kern0 0 (X5 ∘ sigma5) (y5 ∘ sigma5) (permZ sigma5 z5w) :=
    permZ_solves kern0 0 sigma5 X5 y5 z5w hz
  exact row_reorder_invariance kern0 sigma5 X5 y5 z5w (permZ sigma5 z5w) hz hz'
    (fun z2 h2 =>
      solves_unique kern0 0 (X5 ∘ sigma5) (y5 ∘ sigma5) hfitP h2 hz')
    ![9, 7, 5, 3]
